import Mathlib

/-!
Verification of the hybrid-retrieval and asynchronous-ingestion subsystem of
the memlane repository.

The Go sources are shallow-embedded as Lean functions:

* `EmbedBatch` (backend/internal/services/embedding_service.go, as given in
  docs/rag-benchmark-guide.md) — batching of embedding API calls.
* `reciprocalRankFusion` (backend/internal/services/rag_service.go, as given in
  docs/rag-benchmark-guide.md) — reciprocal-rank fusion of vector and keyword
  search results.
* `ValidateFile` / `ParseFile` (backend/internal/services/file_parser_service.go)
  — upload validation and parsing of .txt/.md files into memory sections.
* `UploadMemoryFile` / `processUploadJob` / `GetUploadJobStatus`
  (backend/internal/handlers/memory_handler.go) — the asynchronous upload
  handler, its background worker and the status endpoint, plus the older
  synchronous `UploadMemoryFile` handler.

Modelling conventions: Go float64 values are modelled as exact rationals (ℚ);
Go byte/string file content is modelled as `List Char`; the unspecified
iteration order of a Go map is modelled by an explicit iteration-order
parameter constrained to be a permutation; the UploadJobService (whose
implementation is not part of the sources, only its call sites) is modelled
from the specification, as marked on each such definition.
-/

set_option autoImplicit false

namespace Memlane

/-! ### Embedding client: EmbedBatch (docs/rag-benchmark-guide.md, EmbedBatch) -/

/-- Fixed-length embedding vector (float32 array modelled over ℚ). -/
abbrev EmbeddingVector := List ℚ

/-- The constant `API_BATCH_SIZE = 200` from `EmbedBatch`. -/
def API_BATCH_SIZE : Nat := 200

/-- The batches formed by the loop `for i := 0; i < len(texts); i += B`:
consecutive slices `texts[i:i+B]` (the last one possibly shorter). -/
def embedBatches {α : Type} (B : Nat) : List α → List (List α)
  | [] => []
  | t :: ts => (t :: ts).take B :: embedBatches B (ts.drop (B - 1))
termination_by l => l.length
decreasing_by
  simp only [List.length_drop, List.length_cons]
  omega

/-- `EmbedBatch`: cleans each text of a batch, issues one external API call per
batch, and concatenates the returned embeddings. The external API and
`cleanText` are collaborators, passed as parameters. The second component
counts the number of external API calls issued. -/
def EmbedBatch (api : List String → List EmbeddingVector)
    (cleanText : String → String) (texts : List String) :
    List EmbeddingVector × Nat :=
  (embedBatches API_BATCH_SIZE texts).foldl
    (fun acc batch => (acc.1 ++ api (batch.map cleanText), acc.2 + 1)) ([], 0)

/-! ### Hybrid search: reciprocalRankFusion (docs/rag-benchmark-guide.md) -/

/-- The document identity used by the fusion key
`fmt.Sprintf("%s-%s", result.Document.ContentType, result.Document.ContentID)`. -/
structure Document where
  contentType : String
  contentID : String
deriving DecidableEq

/-- models.SearchResult, restricted to the fields reciprocalRankFusion reads
or writes. -/
structure SearchResult where
  document : Document
  score : ℚ
  matchType : String
  highlights : List String
deriving DecidableEq

/-- The fusion key of a result. -/
def resultKey (r : SearchResult) : String :=
  r.document.contentType ++ "-" ++ r.document.contentID

/-- The RRF constant `k = 60.0`. -/
def rrfK : ℚ := 60

/-- The reciprocal-rank contribution `1.0 / (k + float64(i+1))` of rank
position `i` (0-based loop index). -/
def rrfAt (i : Nat) : ℚ := 1 / (rrfK + ((i + 1 : Nat) : ℚ))

/-- `scoreMap[key] += v` (the score map is only ever read pointwise, so it is
modelled as a function). -/
def updateScore (sm : String → ℚ) (k : String) (v : ℚ) : String → ℚ :=
  fun k' => if k' = k then sm k' + v else sm k'

/-- `docMap`, as an insertion-ordered association list. -/
abbrev DocMap := List (String × SearchResult)

/-- The `_, exists := docMap[key]` containment test. -/
def hasKey (dm : DocMap) (k : String) : Bool := dm.any (fun p => p.1 == k)

/-- The vector-results loop of reciprocalRankFusion: accumulate
`vectorWeight * (1.0/(k+i+1))` into the score map and insert the first result
seen for a key into `docMap` with `MatchType = "vector"`. -/
def addVector (vw : ℚ) : Nat → List SearchResult → (String → ℚ) → DocMap →
    (String → ℚ) × DocMap
  | _, [], sm, dm => (sm, dm)
  | i, r :: rs, sm, dm =>
      addVector vw (i + 1) rs
        (updateScore sm (resultKey r) (vw * rrfAt i))
        (if hasKey dm (resultKey r) then dm
         else dm ++ [(resultKey r, { r with matchType := "vector" })])

/-- The update applied to an existing docMap entry when the same key shows up
in the keyword results: mark it `"hybrid"` and append any highlights. -/
def mergeHighlights (existing incoming : SearchResult) : SearchResult :=
  { existing with
    matchType := "hybrid",
    highlights :=
      if incoming.highlights ≠ [] then existing.highlights ++ incoming.highlights
      else existing.highlights }

/-- The keyword-results loop of reciprocalRankFusion: accumulate
`keywordWeight * (1.0/(k+i+1))`; an existing entry becomes `"hybrid"`, a new
one is inserted with `MatchType = "keyword"`. -/
def addKeyword (kw : ℚ) : Nat → List SearchResult → (String → ℚ) → DocMap →
    (String → ℚ) × DocMap
  | _, [], sm, dm => (sm, dm)
  | i, r :: rs, sm, dm =>
      addKeyword kw (i + 1) rs
        (updateScore sm (resultKey r) (kw * rrfAt i))
        (if hasKey dm (resultKey r) then
           dm.map (fun p =>
             if p.1 = resultKey r then (p.1, mergeHighlights p.2 r) else p)
         else dm ++ [(resultKey r, { r with matchType := "keyword" })])

/-- Descending-score order used by `sort.Slice(combined, ... Score > ...)`.
Only sortedness and the underlying multiset are guaranteed by the source
(`sort.Slice` is not stable). -/
def scoreGE (a b : SearchResult) : Prop := b.score ≤ a.score

instance : DecidableRel scoreGE :=
  fun a b => inferInstanceAs (Decidable (b.score ≤ a.score))

instance : IsTotal SearchResult scoreGE :=
  ⟨fun a b => le_total b.score a.score⟩

instance : IsTrans SearchResult scoreGE :=
  ⟨fun _ _ _ hab hbc => le_trans hbc hab⟩

/-- `reciprocalRankFusion`: two accumulation loops, then one iteration over
`docMap` that sets each result's score and filters by `score >= minSimilarity`,
then a sort by score descending. Go iterates the map in unspecified order;
`iter` models that iteration order and is constrained to a permutation in the
theorems below. -/
def reciprocalRankFusion (iter : DocMap → DocMap)
    (vectorResults keywordResults : List SearchResult)
    (vectorWeight minSimilarity : ℚ) : List SearchResult :=
  let st1 := addVector vectorWeight 0 vectorResults (fun _ => 0) []
  let st := addKeyword (1 - vectorWeight) 0 keywordResults st1.1 st1.2
  let combined := (iter st.2).filterMap
    (fun p => if minSimilarity ≤ st.1 p.1
              then some { p.2 with score := st.1 p.1 } else none)
  List.insertionSort scoreGE combined

/-- The total RRF contribution of one ranked list to a key: sum over every
occurrence of the key of `w * (1/(k + rank))`, ranks 1-indexed (`i` is the
0-based position of the head of `rs`). -/
def rrfContribAux (w : ℚ) (key : String) : Nat → List SearchResult → ℚ
  | _, [] => 0
  | i, r :: rs =>
      (if resultKey r = key then w * rrfAt i else 0) + rrfContribAux w key (i + 1) rs

/-- The fused score the spec describes: vector contribution with weight
`vectorWeight` plus keyword contribution with weight `1 - vectorWeight`. -/
def specScore (vr kr : List SearchResult) (vw : ℚ) (key : String) : ℚ :=
  rrfContribAux vw key 0 vr + rrfContribAux (1 - vw) key 0 kr

/-! ### File parser service (backend/internal/services/file_parser_service.go) -/

/-- FileUploadError with its code ("invalid_type", "too_large", "empty_file",
"parse_error") and message. -/
structure FileUploadError where
  code : String
  message : String
deriving DecidableEq

/-- ParsedMemorySection: a section extracted from an uploaded file. File text
is modelled as `List Char`. -/
structure ParsedMemorySection where
  content : List Char
  heading : List Char
  order : Nat
deriving DecidableEq

/-- `MaxFileSize = 5 * 1024 * 1024` (5 MB); file sizes are int64. -/
def MaxFileSize : Int := 5 * 1024 * 1024

/-- strings.ToLower, character-wise (ASCII filenames; Go lower-cases
unicode-aware, Char.toLower agrees on ASCII). -/
def toLowerStr (s : String) : String := ⟨s.data.map Char.toLower⟩

/-- filepath.Ext: the suffix beginning at the final dot of the filename
(empty if there is no dot; uploaded filenames carry no path separators). -/
def filepathExt (s : String) : String :=
  if '.' ∈ s.data then
    ⟨'.' :: (s.data.reverse.takeWhile (fun c => c ≠ '.')).reverse⟩
  else ""

/-- ValidateFile: size check first, then the lower-cased extension must be
".txt" or ".md". -/
def ValidateFile (filename : String) (size : Int) : Except FileUploadError Unit :=
  if MaxFileSize < size then
    .error ⟨"too_large", "File exceeds 5MB limit"⟩
  else
    let ext := toLowerStr (filepathExt filename)
    if ext ≠ ".txt" ∧ ext ≠ ".md" then
      .error ⟨"invalid_type", "Only .txt and .md files allowed"⟩
    else .ok ()

/-- GetFileType: the lower-cased extension, or an invalid_type error. -/
def GetFileType (filename : String) : Except FileUploadError String :=
  let ext := toLowerStr (filepathExt filename)
  if ext ≠ ".txt" ∧ ext ≠ ".md" then
    .error ⟨"invalid_type", "Only .txt and .md files allowed"⟩
  else .ok ext

/-- strings.TrimSpace on file text (leading and trailing whitespace removed). -/
def trimChars (cs : List Char) : List Char :=
  ((cs.dropWhile Char.isWhitespace).reverse.dropWhile Char.isWhitespace).reverse

/-- parseTxtFile: the whole (trimmed) file is a single section; an empty file
is an error. -/
def parseTxtFile (filename : String) (content : List Char) :
    Except FileUploadError (List ParsedMemorySection) :=
  let text := trimChars content
  if text = [] then .error ⟨"empty_file", "File is empty"⟩
  else .ok [⟨text, filename.data, 0⟩]

/-- Number of leading '#' characters of a line. -/
def hashRun (l : List Char) : Nat := (l.takeWhile (fun c => c == '#')).length

/-- After the 1–2 leading '#'s, the regex `\s+(.+)$` needs a whitespace
character followed by at least one further character. -/
def headsAfter (rest : List Char) : Bool :=
  match rest with
  | c :: _ :: _ => c.isWhitespace
  | _ => false

/-- A line matched by the heading regex `(?m)^(#{1,2})\s+(.+)$`: one or two
leading '#' (three or more make both alternatives of `#{1,2}` fail), then
whitespace, then at least one character. -/
def isHeadingLine (l : List Char) : Bool :=
  decide (1 ≤ hashRun l ∧ hashRun l ≤ 2) && headsAfter (l.drop (hashRun l))

/-- The heading text (capture group 2): the rest of the line after the '#'s
and the greedy whitespace run, backtracking one whitespace character if the
rest is blank. -/
def headingText (l : List Char) : List Char :=
  let rest := l.drop (hashRun l)
  let t := rest.dropWhile Char.isWhitespace
  if t = [] then rest.drop (rest.length - 1) else t

/-- Split file text into lines at '\n' (the offset arithmetic of the source
is modelled line-based). -/
def splitLinesAux (cur : List Char) : List Char → List (List Char)
  | [] => [cur.reverse]
  | c :: cs =>
      if c = '\n' then cur.reverse :: splitLinesAux [] cs
      else splitLinesAux (c :: cur) cs

/-- Lines of a file text. -/
def splitLines (cs : List Char) : List (List Char) := splitLinesAux [] cs

/-- Join lines back with '\n' (the text between two heading offsets). -/
def joinLines : List (List Char) → List Char
  | [] => []
  | [l] => l
  | l :: ls => l ++ '\n' :: joinLines ls

/-- The lines up to (exclusive) the next heading line, and the rest starting
at that heading. -/
def collectBody : List (List Char) → List (List Char) × List (List Char)
  | [] => ([], [])
  | l :: ls =>
      if isHeadingLine l then ([], l :: ls)
      else
        let p := collectBody ls
        (l :: p.1, p.2)

theorem collectBody_rest_length (ls : List (List Char)) :
    (collectBody ls).2.length ≤ ls.length := by
  induction ls with
  | nil => simp [collectBody]
  | cons l ls ih =>
      simp only [collectBody]
      split
      · simp
      · simpa using Nat.le_succ_of_le ih

/-- The per-heading loop of parseMarkdownFile: each heading line opens a
section whose content is the trimmed text up to the next heading; empty
sections are skipped; `order` is the index of the heading match (text before
the first heading is not part of any match's content range). -/
def mdSectionsAux : Nat → List (List Char) → List ParsedMemorySection
  | _, [] => []
  | i, l :: ls =>
      if isHeadingLine l then
        let p := collectBody ls
        let content := trimChars (joinLines p.1)
        if content = [] then mdSectionsAux (i + 1) p.2
        else ⟨content, headingText l, i⟩ :: mdSectionsAux (i + 1) p.2
      else mdSectionsAux i ls
termination_by _ ls => ls.length
decreasing_by
  all_goals simp only [List.length_cons]
  all_goals first
    | exact Nat.lt_succ_of_le (collectBody_rest_length ls)
    | omega

/-- parseMarkdownFile: split by # and ## headings; with no heading the whole
trimmed file is one section (or an empty_file error); with headings, empty
sections are skipped and a file whose sections are all empty is an error. -/
def parseMarkdownFile (filename : String) (content : List Char) :
    Except FileUploadError (List ParsedMemorySection) :=
  let lines := splitLines content
  if lines.all (fun l => !isHeadingLine l) then
    let trimmed := trimChars content
    if trimmed = [] then .error ⟨"empty_file", "File is empty"⟩
    else .ok [⟨trimmed, filename.data, 0⟩]
  else
    let sections := mdSectionsAux 0 lines
    if sections = [] then .error ⟨"empty_file", "File contains no content"⟩
    else .ok sections

/-- ParseFile: dispatch on the validated file type. -/
def ParseFile (filename : String) (content : List Char) :
    Except FileUploadError (List ParsedMemorySection) :=
  match GetFileType filename with
  | .error e => .error e
  | .ok ft =>
      if ft = ".txt" then parseTxtFile filename content
      else if ft = ".md" then parseMarkdownFile filename content
      else .error ⟨"invalid_type", "Only .txt and .md files allowed"⟩

/-! ### Ingestion job manager

The UploadJobService implementation is not among the sources; only its call
sites in memory_handler.go are. Its operations are therefore modelled from
the specification (§3 IngestionJob, §4.6 Ingestion Job Manager), as marked. -/

/-- Job states of the ingestion state machine. -/
inductive JobStatus
  | pending
  | processing
  | completed
  | failed
deriving DecidableEq

/-- A memory produced by the out-of-scope memoryService.Create collaborator. -/
structure Memory where
  id : String
  content : String
deriving DecidableEq

/-- The IngestionJob record (spec §3): status, counters and the ordered
sequence of produced memories. -/
structure IngestionJob where
  id : String
  ownerId : String
  filename : String
  fileType : String
  status : JobStatus
  totalItems : Nat
  processedItems : Nat
  errorMessage : Option String
  results : List Memory
deriving DecidableEq

/-- completed and failed are the terminal states. -/
def isTerminal : JobStatus → Bool
  | .completed => true
  | .failed => true
  | _ => false

/-- Modelled from the spec: `createJob(ownerId, filename, fileType,
totalItems)` of the UploadJobService (not under src/) allocates a job id
(modelled as the `id` parameter), stores the record and returns immediately
with status pending, zero progress and no results. -/
def createJob (id ownerId filename fileType : String) (totalItems : Nat) :
    IngestionJob :=
  ⟨id, ownerId, filename, fileType, .pending, totalItems, 0, none, []⟩

/-- Modelled from the spec: `UpdateJobStatus` of the UploadJobService (not
under src/); a job whose status is terminal is immutable. -/
def updateJobStatus (j : IngestionJob) (s : JobStatus) : IngestionJob :=
  if isTerminal j.status then j else { j with status := s }

/-- Modelled from the spec: `AddMemoryToJob` of the UploadJobService (not
under src/) appends the memory to `results` and increments `processedItems`;
a terminal job is immutable. -/
def addMemoryToJob (j : IngestionJob) (m : Memory) : IngestionJob :=
  if isTerminal j.status then j
  else { j with results := j.results ++ [m],
                processedItems := j.processedItems + 1 }

/-- Modelled from the spec: the transition to `failed` with `errorMessage`
set, used when the manager cannot proceed at all; a terminal job is
immutable. No call site in the handler reaches it. -/
def failJob (j : IngestionJob) (msg : String) : IngestionJob :=
  if isTerminal j.status then j
  else { j with status := .failed, errorMessage := some msg }

/-- The memoryService.Create collaborator: per call index and section
content, either the created memory or a failure. -/
abbrev CreateFn := Nat → List Char → Option Memory

/-- One iteration of the section loop of processUploadJob: on success the
memory is added to the job, a failure is logged and skipped. -/
def stepSection (create : CreateFn) (j : IngestionJob) (i : Nat)
    (s : ParsedMemorySection) : IngestionJob :=
  match create i s.content with
  | none => j
  | some m => addMemoryToJob j m

/-- The section loop of processUploadJob. -/
def processAux (create : CreateFn) : Nat → IngestionJob →
    List ParsedMemorySection → IngestionJob
  | _, j, [] => j
  | i, j, s :: ss => processAux create (i + 1) (stepSection create j i s) ss

/-- processUploadJob (memory_handler.go): set the job to processing, run the
section loop, mark the job completed. -/
def processUploadJob (create : CreateFn) (j : IngestionJob)
    (sections : List ParsedMemorySection) : IngestionJob :=
  updateJobStatus
    (processAux create 0 (updateJobStatus j .processing) sections) .completed

/-- The job snapshots produced while the worker runs: one after each section,
ending with the completed job. -/
def traceAux (create : CreateFn) : Nat → IngestionJob →
    List ParsedMemorySection → List IngestionJob
  | _, j, [] => [updateJobStatus j .completed]
  | i, j, s :: ss =>
      stepSection create j i s ::
        traceAux create (i + 1) (stepSection create j i s) ss

/-- The full lifetime of a job: created snapshot, processing snapshot, one
snapshot per section, completed snapshot. -/
def processTrace (create : CreateFn) (j : IngestionJob)
    (sections : List ParsedMemorySection) : List IngestionJob :=
  j :: updateJobStatus j .processing ::
    traceAux create 0 (updateJobStatus j .processing) sections

/-- The successfully created memories, in section order. -/
def sectionSuccesses (create : CreateFn) : Nat → List ParsedMemorySection →
    List Memory
  | _, [] => []
  | i, s :: ss =>
      match create i s.content with
      | none => sectionSuccesses create (i + 1) ss
      | some m => m :: sectionSuccesses create (i + 1) ss

/-! ### Upload handlers (memory_handler.go) -/

/-- The HTTP outcomes of the asynchronous upload handler. -/
inductive AsyncUploadResponse
  | badRequest (msg : String)
  | accepted (jobId : String) (status : JobStatus) (filename fileType : String)
deriving DecidableEq

/-- What the asynchronous handler did: its response, the job record it
created (none on rejection) and the sections handed to the background
worker. -/
structure UploadOutcome where
  response : AsyncUploadResponse
  job : Option IngestionJob
  pendingSections : List ParsedMemorySection
deriving DecidableEq

/-- The asynchronous UploadMemoryFile handler: validate, read, parse, create
a job, hand the sections to the background worker, and answer 202 Accepted
with the created job's fields. `newId` models the job id allocation. -/
def uploadMemoryFileAsync (newId userId filename : String) (size : Int)
    (content : List Char) : UploadOutcome :=
  match ValidateFile filename size with
  | .error e => ⟨.badRequest e.message, none, []⟩
  | .ok _ =>
      match ParseFile filename content with
      | .error e => ⟨.badRequest ("Parse error: " ++ e.message), none, []⟩
      | .ok sections =>
          let fileType := filepathExt filename
          let job := createJob newId userId filename fileType sections.length
          ⟨.accepted job.id job.status job.filename job.fileType,
            some job, sections⟩

/-- The HTTP outcomes of the older synchronous upload handler. -/
inductive SyncUploadResponse
  | badRequest (msg : String)
  | internalError (msg : String)
  | created (memories : List Memory) (totalCreated : Nat)
      (filename fileType : String)
deriving DecidableEq

/-- The section loop of the synchronous handler: append each successfully
created memory, skip failures. -/
def syncAux (create : CreateFn) : Nat → List Memory →
    List ParsedMemorySection → List Memory
  | _, acc, [] => acc
  | i, acc, s :: ss =>
      match create i s.content with
      | none => syncAux create (i + 1) acc ss
      | some m => syncAux create (i + 1) (acc ++ [m]) ss

/-- The older synchronous UploadMemoryFile handler: validate, parse, create
all memories inline, fail with 500 if none was created, otherwise answer 201
with the created memories. -/
def uploadMemoryFileSync (create : CreateFn) (filename : String) (size : Int)
    (content : List Char) : SyncUploadResponse :=
  match ValidateFile filename size with
  | .error e => .badRequest e.message
  | .ok _ =>
      match ParseFile filename content with
      | .error e => .badRequest ("Parse error: " ++ e.message)
      | .ok sections =>
          let created := syncAux create 0 [] sections
          if created = [] then
            .internalError "Failed to create any memories from file"
          else .created created created.length filename (filepathExt filename)

/-! ### Job status endpoint -/

/-- The polled snapshot of a job (models.UploadJobStatusResponse). -/
structure JobStatusSnapshot where
  jobId : String
  status : JobStatus
  progress : ℚ
  processedItems : Nat
  totalItems : Nat
  memories : List Memory
  errorMessage : Option String
deriving DecidableEq

/-- Modelled from the spec: `getStatus(jobId)` of the UploadJobService (not
under src/): a consistent snapshot of the stored job, with `progress`
computed as `processedItems / totalItems` (0 if `totalItems == 0`), or a
NotFoundError for an unknown job id. -/
def getJobStatus (registry : List (String × IngestionJob)) (jobId : String) :
    Except String JobStatusSnapshot :=
  match registry.lookup jobId with
  | none => .error "job not found"
  | some j =>
      .ok ⟨j.id, j.status,
        if j.totalItems = 0 then 0
        else (j.processedItems : ℚ) / (j.totalItems : ℚ),
        j.processedItems, j.totalItems, j.results, j.errorMessage⟩

/-- The HTTP outcomes of GetUploadJobStatus. -/
inductive StatusResponse
  | ok (snapshot : JobStatusSnapshot)
  | notFound (msg : String)
deriving DecidableEq

/-- GetUploadJobStatus (memory_handler.go): 200 with the snapshot, or 404
with "Job not found". -/
def GetUploadJobStatus (registry : List (String × IngestionJob))
    (jobId : String) : StatusResponse :=
  match getJobStatus registry jobId with
  | .error _ => .notFound "Job not found"
  | .ok s => .ok s

/-! ### Lemmas: embedding batch count -/

theorem embedBatches_length_aux {α : Type} (B : Nat) (hB : 0 < B) :
    ∀ (n : Nat) (l : List α), l.length ≤ n →
      (embedBatches B l).length = (l.length + (B - 1)) / B := by
  intro n
  induction n with
  | zero =>
      intro l hl
      have hnil : l = [] := List.eq_nil_of_length_eq_zero (Nat.le_zero.mp hl)
      subst hnil
      simp only [embedBatches, List.length_nil, Nat.zero_add]
      rw [Nat.div_eq_of_lt (by omega)]
  | succ n ih =>
      intro l hl
      cases l with
      | nil =>
          simp only [embedBatches, List.length_nil, Nat.zero_add]
          rw [Nat.div_eq_of_lt (by omega)]
      | cons t ts =>
          simp only [embedBatches, List.length_cons]
          have hdrop : (ts.drop (B - 1)).length = ts.length - (B - 1) :=
            List.length_drop _ _
          rw [ih (ts.drop (B - 1)) (by rw [hdrop]; simp at hl; omega), hdrop]
          have hr : ts.length + 1 + (B - 1) = ts.length + B := by omega
      -- ceil arithmetic: one more batch for the first B elements
          rw [hr, Nat.add_div_right _ hB]
          by_cases hm : B - 1 ≤ ts.length
          · have h1 : ts.length - (B - 1) + (B - 1) = ts.length := by omega
            rw [h1, Nat.add_comm]
          · have h1 : ts.length - (B - 1) = 0 := by omega
            rw [h1, Nat.zero_add, Nat.div_eq_of_lt (by omega),
              Nat.div_eq_of_lt (by omega)]

theorem embedBatches_length {α : Type} (B : Nat) (hB : 0 < B) (l : List α) :
    (embedBatches B l).length = (l.length + (B - 1)) / B :=
  embedBatches_length_aux B hB l.length l (Nat.le_refl _)

theorem EmbedBatch_count_eq (api : List String → List EmbeddingVector)
    (cleanText : String → String) (texts : List String) :
    (EmbedBatch api cleanText texts).2 =
      (embedBatches API_BATCH_SIZE texts).length := by
  unfold EmbedBatch
  generalize embedBatches API_BATCH_SIZE texts = bs
  suffices h : ∀ (acc : List EmbeddingVector × Nat),
      (bs.foldl (fun acc batch =>
        (acc.1 ++ api (batch.map cleanText), acc.2 + 1)) acc).2 =
      acc.2 + bs.length by
    simpa using h ([], 0)
  induction bs with
  | nil => intro acc; simp
  | cons b bs ih =>
      intro acc
      simp only [List.foldl_cons, ih, List.length_cons]
      omega

/-- C5: the number of external embedding API calls for `n` texts and batch
size `B` is exactly `ceil(n/B) = (n + B - 1) / B`, never one per text; with
the source's `API_BATCH_SIZE = 200`, 250 texts issue exactly 2 calls. -/
theorem embed_batch_call_count (api : List String → List EmbeddingVector)
    (cleanText : String → String) (B : Nat) (hB : 0 < B)
    (texts : List String) :
    (embedBatches B texts).length = (texts.length + (B - 1)) / B ∧
    (EmbedBatch api cleanText texts).2 = (texts.length + 199) / 200 ∧
    (texts.length = 250 → (EmbedBatch api cleanText texts).2 = 2) := by
  refine ⟨embedBatches_length B hB texts, ?_, ?_⟩
  · rw [EmbedBatch_count_eq,
      embedBatches_length API_BATCH_SIZE (by decide) texts]
    rfl
  · intro h250
    rw [EmbedBatch_count_eq,
      embedBatches_length API_BATCH_SIZE (by decide) texts, h250]
    rfl

set_option maxRecDepth 4000 in
theorem embed_batch_call_count_witness :
    (0 < 200) ∧ (List.replicate 250 "t").length = 250 ∧
    (EmbedBatch (fun _ => []) (fun t => t) (List.replicate 250 "t")).2 = 2 :=
  ⟨by decide, by rw [List.length_replicate],
    (embed_batch_call_count (fun _ => []) (fun t => t) 200 (by decide)
      (List.replicate 250 "t")).2.2 (by rw [List.length_replicate])⟩

/-! ### Lemmas: reciprocal rank fusion -/

theorem rrfAt_nonneg (i : Nat) : 0 ≤ rrfAt i := by
  unfold rrfAt rrfK
  positivity

theorem rrfAt_le (i : Nat) : rrfAt i ≤ 1 / 61 := by
  unfold rrfAt rrfK
  apply one_div_le_one_div_of_le
  · norm_num
  · push_cast
    linarith [Nat.cast_nonneg (α := ℚ) i]

theorem hasKey_iff (dm : DocMap) (k : String) :
    hasKey dm k = true ↔ k ∈ dm.map Prod.fst := by
  simp only [hasKey, List.any_eq_true, List.mem_map, beq_iff_eq]

theorem addVector_score (vw : ℚ) :
    ∀ (rs : List SearchResult) (i : Nat) (sm : String → ℚ) (dm : DocMap)
      (k : String),
      (addVector vw i rs sm dm).1 k = sm k + rrfContribAux vw k i rs := by
  intro rs
  induction rs with
  | nil => intro i sm dm k; simp [addVector, rrfContribAux]
  | cons r rs ih =>
      intro i sm dm k
      simp only [addVector, rrfContribAux, ih]
      by_cases hk : k = resultKey r
      · simp [updateScore, hk]
        ring
      · simp [updateScore, hk, Ne.symm hk]

theorem addKeyword_score (kw : ℚ) :
    ∀ (rs : List SearchResult) (i : Nat) (sm : String → ℚ) (dm : DocMap)
      (k : String),
      (addKeyword kw i rs sm dm).1 k = sm k + rrfContribAux kw k i rs := by
  intro rs
  induction rs with
  | nil => intro i sm dm k; simp [addKeyword, rrfContribAux]
  | cons r rs ih =>
      intro i sm dm k
      simp only [addKeyword, rrfContribAux, ih]
      by_cases hk : k = resultKey r
      · simp [updateScore, hk]
        ring
      · simp [updateScore, hk, Ne.symm hk]

theorem mergeHighlights_key (a b : SearchResult) :
    resultKey (mergeHighlights a b) = resultKey a := rfl

theorem resultKey_set_matchType (r : SearchResult) (mt : String) :
    resultKey { r with matchType := mt } = resultKey r := rfl

theorem mapUpdate_keys (dm : DocMap) (key : String) (r : SearchResult) :
    (dm.map (fun p => if p.1 = key then (p.1, mergeHighlights p.2 r) else p)).map
        Prod.fst = dm.map Prod.fst := by
  rw [List.map_map]
  apply List.map_congr_left
  intro p _
  by_cases h0 : p.1 = key <;> simp [h0]

theorem addVector_dm_keys (vw : ℚ) :
    ∀ (rs : List SearchResult) (i : Nat) (sm : String → ℚ) (dm : DocMap)
      (k : String),
      k ∈ (addVector vw i rs sm dm).2.map Prod.fst ↔
        k ∈ dm.map Prod.fst ∨ k ∈ rs.map resultKey := by
  intro rs
  induction rs with
  | nil => intro i sm dm k; simp [addVector]
  | cons r rs ih =>
      intro i sm dm k
      simp only [addVector, ih, List.map_cons, List.mem_cons]
      by_cases hs : hasKey dm (resultKey r) = true
      · rw [if_pos hs]
        have hk : resultKey r ∈ dm.map Prod.fst := (hasKey_iff _ _).mp hs
        constructor
        · rintro (h | h)
          · exact Or.inl h
          · exact Or.inr (Or.inr h)
        · rintro (h | rfl | h)
          · exact Or.inl h
          · exact Or.inl hk
          · exact Or.inr h
      · rw [if_neg hs]
        simp only [List.map_append, List.mem_append, List.map_cons,
          List.map_nil, List.mem_cons, List.not_mem_nil, or_false]
        constructor
        · rintro ((h | h) | h)
          · exact Or.inl h
          · exact Or.inr (Or.inl h)
          · exact Or.inr (Or.inr h)
        · rintro (h | h | h)
          · exact Or.inl (Or.inl h)
          · exact Or.inl (Or.inr h)
          · exact Or.inr h

theorem addKeyword_dm_keys (kw : ℚ) :
    ∀ (rs : List SearchResult) (i : Nat) (sm : String → ℚ) (dm : DocMap)
      (k : String),
      k ∈ (addKeyword kw i rs sm dm).2.map Prod.fst ↔
        k ∈ dm.map Prod.fst ∨ k ∈ rs.map resultKey := by
  intro rs
  induction rs with
  | nil => intro i sm dm k; simp [addKeyword]
  | cons r rs ih =>
      intro i sm dm k
      simp only [addKeyword, ih, List.map_cons, List.mem_cons]
      by_cases hs : hasKey dm (resultKey r) = true
      · rw [if_pos hs, mapUpdate_keys]
        have hk : resultKey r ∈ dm.map Prod.fst := (hasKey_iff _ _).mp hs
        constructor
        · rintro (h | h)
          · exact Or.inl h
          · exact Or.inr (Or.inr h)
        · rintro (h | rfl | h)
          · exact Or.inl h
          · exact Or.inl hk
          · exact Or.inr h
      · rw [if_neg hs]
        simp only [List.map_append, List.mem_append, List.map_cons,
          List.map_nil, List.mem_cons, List.not_mem_nil, or_false]
        constructor
        · rintro ((h | h) | h)
          · exact Or.inl h
          · exact Or.inr (Or.inl h)
          · exact Or.inr (Or.inr h)
        · rintro (h | h | h)
          · exact Or.inl (Or.inl h)
          · exact Or.inl (Or.inr h)
          · exact Or.inr h

theorem addVector_dm_wf (vw : ℚ) :
    ∀ (rs : List SearchResult) (i : Nat) (sm : String → ℚ) (dm : DocMap),
      (∀ p ∈ dm, resultKey p.2 = p.1) →
      ∀ p ∈ (addVector vw i rs sm dm).2, resultKey p.2 = p.1 := by
  intro rs
  induction rs with
  | nil => intro i sm dm h; simpa [addVector] using h
  | cons r rs ih =>
      intro i sm dm h
      simp only [addVector]
      apply ih
      split
      · exact h
      · intro p hp
        rcases List.mem_append.mp hp with h1 | h1
        · exact h p h1
        · simp only [List.mem_singleton] at h1
          rw [h1]
          exact resultKey_set_matchType r _

theorem addKeyword_dm_wf (kw : ℚ) :
    ∀ (rs : List SearchResult) (i : Nat) (sm : String → ℚ) (dm : DocMap),
      (∀ p ∈ dm, resultKey p.2 = p.1) →
      ∀ p ∈ (addKeyword kw i rs sm dm).2, resultKey p.2 = p.1 := by
  intro rs
  induction rs with
  | nil => intro i sm dm h; simpa [addKeyword] using h
  | cons r rs ih =>
      intro i sm dm h
      simp only [addKeyword]
      apply ih
      split
      · intro p hp
        obtain ⟨p0, hp0, hpe⟩ := List.mem_map.mp hp
        by_cases h0 : p0.1 = resultKey r
        · rw [if_pos h0] at hpe
          rw [← hpe, mergeHighlights_key]
          exact h p0 hp0
        · rw [if_neg h0] at hpe
          rw [← hpe]
          exact h p0 hp0
      · intro p hp
        rcases List.mem_append.mp hp with h1 | h1
        · exact h p h1
        · simp only [List.mem_singleton] at h1
          rw [h1]
          exact resultKey_set_matchType r _

theorem rrfContribAux_nonneg (w : ℚ) (hw : 0 ≤ w) (key : String) :
    ∀ (rs : List SearchResult) (i : Nat), 0 ≤ rrfContribAux w key i rs := by
  intro rs
  induction rs with
  | nil => intro i; simp [rrfContribAux]
  | cons r rs ih =>
      intro i
      simp only [rrfContribAux]
      have h1 : 0 ≤ w * rrfAt i := mul_nonneg hw (rrfAt_nonneg i)
      have h2 := ih (i + 1)
      split <;> linarith

theorem rrfContribAux_zero (w : ℚ) (key : String) :
    ∀ (rs : List SearchResult) (i : Nat), key ∉ rs.map resultKey →
      rrfContribAux w key i rs = 0 := by
  intro rs
  induction rs with
  | nil => intro i _; simp [rrfContribAux]
  | cons r rs ih =>
      intro i hk
      simp only [List.map_cons, List.mem_cons, not_or] at hk
      simp only [rrfContribAux, ih (i + 1) hk.2, add_zero]
      rw [if_neg]
      intro h
      exact hk.1 h.symm

theorem rrfContribAux_le (w : ℚ) (hw : 0 ≤ w) (key : String) :
    ∀ (rs : List SearchResult) (i : Nat), (rs.map resultKey).Nodup →
      rrfContribAux w key i rs ≤ w * (1 / 61) := by
  intro rs
  induction rs with
  | nil => intro i _; simp [rrfContribAux]; positivity
  | cons r rs ih =>
      intro i hnd
      simp only [List.map_cons, List.nodup_cons] at hnd
      simp only [rrfContribAux]
      by_cases hk : resultKey r = key
      · rw [if_pos hk, rrfContribAux_zero w key rs (i + 1) (by rw [← hk]; exact hnd.1)]
        have := rrfAt_le i
        have : w * rrfAt i ≤ w * (1 / 61) :=
          mul_le_mul_of_nonneg_left (rrfAt_le i) hw
        linarith
      · rw [if_neg hk, zero_add]
        exact ih (i + 1) hnd.2

theorem specScore_nonneg (vr kr : List SearchResult) (vw : ℚ)
    (h0 : 0 ≤ vw) (h1 : vw ≤ 1) (k : String) :
    0 ≤ specScore vr kr vw k := by
  unfold specScore
  have := rrfContribAux_nonneg vw h0 k vr 0
  have := rrfContribAux_nonneg (1 - vw) (by linarith) k kr 0
  linarith

theorem specScore_le (vr kr : List SearchResult) (vw : ℚ)
    (h0 : 0 ≤ vw) (h1 : vw ≤ 1)
    (hv : (vr.map resultKey).Nodup) (hk : (kr.map resultKey).Nodup)
    (k : String) : specScore vr kr vw k ≤ 1 / 61 := by
  unfold specScore
  have hc1 := rrfContribAux_le vw h0 k vr 0 hv
  have hc2 := rrfContribAux_le (1 - vw) (by linarith) k kr 0 hk
  have : vw * (1 / 61) + (1 - vw) * (1 / 61) = 1 / 61 := by ring
  linarith

/-- The score map after both accumulation loops. -/
def rrfSM (vr kr : List SearchResult) (vw : ℚ) : String → ℚ :=
  (addKeyword (1 - vw) 0 kr (addVector vw 0 vr (fun _ => 0) []).1
    (addVector vw 0 vr (fun _ => 0) []).2).1

/-- The doc map after both accumulation loops. -/
def rrfDM (vr kr : List SearchResult) (vw : ℚ) : DocMap :=
  (addKeyword (1 - vw) 0 kr (addVector vw 0 vr (fun _ => 0) []).1
    (addVector vw 0 vr (fun _ => 0) []).2).2

theorem reciprocalRankFusion_eq (iter : DocMap → DocMap)
    (vr kr : List SearchResult) (vw ms : ℚ) :
    reciprocalRankFusion iter vr kr vw ms =
      List.insertionSort scoreGE ((iter (rrfDM vr kr vw)).filterMap
        (fun p => if ms ≤ rrfSM vr kr vw p.1
                  then some { p.2 with score := rrfSM vr kr vw p.1 }
                  else none)) := rfl

theorem rrfSM_eq_specScore (vr kr : List SearchResult) (vw : ℚ) (k : String) :
    rrfSM vr kr vw k = specScore vr kr vw k := by
  unfold rrfSM specScore
  rw [addKeyword_score, addVector_score]
  ring

theorem rrfDM_wf (vr kr : List SearchResult) (vw : ℚ) :
    ∀ p ∈ rrfDM vr kr vw, resultKey p.2 = p.1 := by
  unfold rrfDM
  exact addKeyword_dm_wf (1 - vw) kr 0 _ _
    (addVector_dm_wf vw vr 0 _ [] (by simp))

theorem rrfDM_keys (vr kr : List SearchResult) (vw : ℚ) (k : String) :
    k ∈ (rrfDM vr kr vw).map Prod.fst ↔
      k ∈ vr.map resultKey ∨ k ∈ kr.map resultKey := by
  unfold rrfDM
  rw [addKeyword_dm_keys, addVector_dm_keys]
  simp [or_comm]

theorem rrf_mem_char (iter : DocMap → DocMap) (vr kr : List SearchResult)
    (vw ms : ℚ) (hiter : ∀ dm, List.Perm (iter dm) dm) (r : SearchResult) :
    r ∈ reciprocalRankFusion iter vr kr vw ms →
      r.score = specScore vr kr vw (resultKey r) ∧ ms ≤ r.score ∧
        (resultKey r ∈ vr.map resultKey ∨ resultKey r ∈ kr.map resultKey) := by
  intro hr
  rw [reciprocalRankFusion_eq] at hr
  rw [(List.perm_insertionSort scoreGE _).mem_iff] at hr
  obtain ⟨p, hp, hf⟩ := List.mem_filterMap.mp hr
  have hpdm : p ∈ rrfDM vr kr vw := (hiter _).mem_iff.mp hp
  by_cases hms : ms ≤ rrfSM vr kr vw p.1
  · rw [if_pos hms] at hf
    have hre : { p.2 with score := rrfSM vr kr vw p.1 } = r :=
      Option.some.inj hf
    have hkey : resultKey r = p.1 := by
      rw [← hre]
      exact rrfDM_wf vr kr vw p hpdm
    have hsc : r.score = rrfSM vr kr vw p.1 := by rw [← hre]
    refine ⟨?_, ?_, ?_⟩
    · rw [hsc, hkey, rrfSM_eq_specScore]
    · rw [hsc]
      exact hms
    · rw [← rrfDM_keys vr kr vw, hkey]
      exact List.mem_map.mpr ⟨p, hpdm, rfl⟩
  · rw [if_neg hms] at hf
    exact absurd hf (by simp)

theorem rrf_sorted (iter : DocMap → DocMap) (vr kr : List SearchResult)
    (vw ms : ℚ) :
    List.Sorted scoreGE (reciprocalRankFusion iter vr kr vw ms) := by
  rw [reciprocalRankFusion_eq]
  exact List.sorted_insertionSort scoreGE _

theorem rrf_complete (iter : DocMap → DocMap) (vr kr : List SearchResult)
    (vw ms : ℚ) (hiter : ∀ dm, List.Perm (iter dm) dm) (k : String)
    (hk : k ∈ vr.map resultKey ∨ k ∈ kr.map resultKey)
    (hscore : ms ≤ specScore vr kr vw k) :
    ∃ r ∈ reciprocalRankFusion iter vr kr vw ms, resultKey r = k := by
  have hk2 : k ∈ (rrfDM vr kr vw).map Prod.fst := (rrfDM_keys vr kr vw k).mpr hk
  obtain ⟨p, hpdm, hpk⟩ := List.mem_map.mp hk2
  have hp : p ∈ iter (rrfDM vr kr vw) := (hiter _).mem_iff.mpr hpdm
  have hms : ms ≤ rrfSM vr kr vw p.1 := by
    rw [hpk, rrfSM_eq_specScore]
    exact hscore
  refine ⟨{ p.2 with score := rrfSM vr kr vw p.1 }, ?_, ?_⟩
  · rw [reciprocalRankFusion_eq,
      (List.perm_insertionSort scoreGE _).mem_iff]
    exact List.mem_filterMap.mpr ⟨p, hp, by rw [if_pos hms]⟩
  · show resultKey p.2 = k
    rw [rrfDM_wf vr kr vw p hpdm, hpk]

theorem rrf_empty_above_max (iter : DocMap → DocMap)
    (vr kr : List SearchResult) (vw ms : ℚ)
    (h0 : 0 ≤ vw) (h1 : vw ≤ 1)
    (hv : (vr.map resultKey).Nodup) (hk : (kr.map resultKey).Nodup)
    (hms : 1 / 61 < ms) :
    reciprocalRankFusion iter vr kr vw ms = [] := by
  rw [reciprocalRankFusion_eq]
  have hnone : ∀ p ∈ iter (rrfDM vr kr vw),
      (if ms ≤ rrfSM vr kr vw p.1
       then some { p.2 with score := rrfSM vr kr vw p.1 } else none) =
        (none : Option SearchResult) := by
    intro p _
    rw [if_neg]
    rw [rrfSM_eq_specScore]
    have := specScore_le vr kr vw h0 h1 hv hk p.1
    intro hcon
    linarith
  rw [List.filterMap_eq_nil_iff.mpr hnone]
  rfl

/-! ### C4 and C6: hybrid fusion -/

/-- First-occurrence deduplication: the order the vector results were merged
in, followed by the keyword-only documents in keyword order. -/
def firstDedup : List String → List String
  | [] => []
  | k :: ks => k :: (firstDedup ks).filter (fun k' => k' ≠ k)

/-- Descending order on scored keys, for the claimed stable sort. -/
def pairGE (a b : String × ℚ) : Prop := b.2 ≤ a.2

instance : DecidableRel pairGE :=
  fun a b => inferInstanceAs (Decidable (b.2 ≤ a.2))

/-- Modelled from the claim's words, for comparison with the source's
reciprocalRankFusion: every document of either list receives score
`specScore`; the list is sorted by score descending with ties broken by the
order vector results were merged in (a stable sort over that merge order)
and truncated to `limit`. Represented as (key, score) pairs. -/
def rrfClaimed (vr kr : List SearchResult) (vw : ℚ) (limit : Nat) :
    List (String × ℚ) :=
  (List.insertionSort pairGE
    ((firstDedup ((vr ++ kr).map resultKey)).map
      (fun k => (k, specScore vr kr vw k)))).take limit

/-- Concrete fusion inputs for the C4 counterexample: two distinct documents,
one per list, which tie under `vectorWeight = 1/2`. -/
def cxVecRes : SearchResult := ⟨⟨"note", "a"⟩, 0, "", []⟩

/-- Keyword-side input for the C4 counterexample. -/
def cxKwRes : SearchResult := ⟨⟨"note", "b"⟩, 0, "", []⟩

theorem strNoteA : ("note" ++ "-" ++ "a" : String) = "note-a" := rfl

theorem strNoteB : ("note" ++ "-" ++ "b" : String) = "note-b" := rfl

theorem strNoteAB : ("note-a" : String) ≠ "note-b" := by decide

theorem strNoteBA : ("note-b" : String) ≠ "note-a" := by decide

theorem cx_code_id :
    reciprocalRankFusion id [cxVecRes] [cxKwRes] (1/2) 0 =
      [⟨⟨"note", "a"⟩, 1/122, "vector", []⟩,
       ⟨⟨"note", "b"⟩, 1/122, "keyword", []⟩] := by
  norm_num [reciprocalRankFusion_eq, rrfSM, rrfDM, addVector, addKeyword,
    updateScore, hasKey, resultKey, cxVecRes, cxKwRes, rrfAt, rrfK,
    mergeHighlights, scoreGE, strNoteA, strNoteB, strNoteAB, strNoteBA,
    List.filterMap, List.insertionSort, List.orderedInsert]

theorem cx_code_rev :
    reciprocalRankFusion List.reverse [cxVecRes] [cxKwRes] (1/2) 0 =
      [⟨⟨"note", "b"⟩, 1/122, "keyword", []⟩,
       ⟨⟨"note", "a"⟩, 1/122, "vector", []⟩] := by
  norm_num [reciprocalRankFusion_eq, rrfSM, rrfDM, addVector, addKeyword,
    updateScore, hasKey, resultKey, cxVecRes, cxKwRes, rrfAt, rrfK,
    mergeHighlights, scoreGE, strNoteA, strNoteB, strNoteAB, strNoteBA,
    List.filterMap, List.insertionSort, List.orderedInsert, List.reverse]

theorem cx_claimed_1 :
    rrfClaimed [cxVecRes] [cxKwRes] (1/2) 1 = [("note-a", 1/122)] := by
  norm_num [rrfClaimed, firstDedup, specScore, rrfContribAux, pairGE,
    resultKey, cxVecRes, cxKwRes, rrfAt, rrfK, strNoteA, strNoteB,
    strNoteAB, strNoteBA, List.insertionSort, List.orderedInsert]

theorem cx_claimed_2 :
    rrfClaimed [cxVecRes] [cxKwRes] (1/2) 2 =
      [("note-a", 1/122), ("note-b", 1/122)] := by
  norm_num [rrfClaimed, firstDedup, specScore, rrfContribAux, pairGE,
    resultKey, cxVecRes, cxKwRes, rrfAt, rrfK, strNoteA, strNoteB,
    strNoteAB, strNoteBA, List.insertionSort, List.orderedInsert]

/-- C4 counterexample: with vector list `[a]`, keyword list `[b]` and
`vectorWeight = 1/2`, (i) the fusion returns both documents although
`limit = 1` would demand truncation to one — reciprocalRankFusion never
truncates (it does not even receive `limit`); and (ii) under the admissible
map iteration order `List.reverse` (a permutation, as Go map iteration order
is unspecified) the tied documents come back in the opposite of the claimed
vector-merge order. -/
theorem rrf_claim_counterexample :
    ((reciprocalRankFusion id [cxVecRes] [cxKwRes] (1/2) 0).map
        (fun r => (resultKey r, r.score))).length = 2 ∧
    (rrfClaimed [cxVecRes] [cxKwRes] (1/2) 1).length = 1 ∧
    (∀ dm : DocMap, List.Perm (List.reverse dm) dm) ∧
    (reciprocalRankFusion List.reverse [cxVecRes] [cxKwRes] (1/2) 0).map
        (fun r => (resultKey r, r.score)) ≠
      rrfClaimed [cxVecRes] [cxKwRes] (1/2) 2 := by
  refine ⟨?_, ?_, fun dm => List.reverse_perm dm, ?_⟩
  · rw [cx_code_id]
    simp
  · rw [cx_claimed_1]
    rfl
  · rw [cx_code_rev, cx_claimed_2]
    simp [resultKey, strNoteA, strNoteB, strNoteAB, strNoteBA]

/-- C4 (amended): the fusion assigns every returned document the score
`sum over both lists of weight/(k+r)` (weight `vectorWeight` for the vector
list, `1 - vectorWeight` for the keyword list, `k = 60`, rank `r`
1-indexed, 0 for a list the document is absent from); the returned list is
sorted by this score descending and consists exactly of the input documents
with score at least `minSimilarity`; truncation to `limit` is not performed
by the fusion, and the order among equal scores is unspecified (Go map
iteration plus a non-stable sort). -/
theorem rrf_fusion_amended (iter : DocMap → DocMap)
    (vr kr : List SearchResult) (vw ms : ℚ)
    (hiter : ∀ dm, List.Perm (iter dm) dm) :
    (∀ r ∈ reciprocalRankFusion iter vr kr vw ms,
        r.score = specScore vr kr vw (resultKey r) ∧ ms ≤ r.score ∧
        (resultKey r ∈ vr.map resultKey ∨ resultKey r ∈ kr.map resultKey)) ∧
    List.Sorted scoreGE (reciprocalRankFusion iter vr kr vw ms) ∧
    (∀ k, (k ∈ vr.map resultKey ∨ k ∈ kr.map resultKey) →
        ms ≤ specScore vr kr vw k →
        ∃ r ∈ reciprocalRankFusion iter vr kr vw ms, resultKey r = k) :=
  ⟨fun r hr => rrf_mem_char iter vr kr vw ms hiter r hr,
   rrf_sorted iter vr kr vw ms,
   fun k hk hs => rrf_complete iter vr kr vw ms hiter k hk hs⟩

theorem rrf_fusion_amended_witness :
    (∀ dm : DocMap, List.Perm (id dm) dm) ∧
    List.Sorted scoreGE
      (reciprocalRankFusion id [cxVecRes] [cxKwRes] (1/2) 0) :=
  ⟨fun dm => List.Perm.refl dm,
   (rrf_fusion_amended id [cxVecRes] [cxKwRes] (1/2) 0
      (fun dm => List.Perm.refl dm)).2.1⟩

/-- Concrete input for the C6 witness. -/
def cxSoleRes : SearchResult := ⟨⟨"note", "c"⟩, 0, "", []⟩

/-- C6: every document whose fused score is below `minSimilarity` is dropped
(no returned document scores below it); with `minSimilarity = 0` (the
default) no document of either input list is dropped; and a `minSimilarity`
above any attainable fused score, such as 1.01 > 1/61, yields the empty
result list — the fusion is a total function, never an error. -/
theorem rrf_min_similarity_filter (iter : DocMap → DocMap)
    (vr kr : List SearchResult) (vw ms : ℚ)
    (hiter : ∀ dm, List.Perm (iter dm) dm) (h0 : 0 ≤ vw) (h1 : vw ≤ 1) :
    (∀ r ∈ reciprocalRankFusion iter vr kr vw ms, ms ≤ r.score) ∧
    (∀ r0, (r0 ∈ vr ∨ r0 ∈ kr) →
        ∃ r ∈ reciprocalRankFusion iter vr kr vw 0,
          resultKey r = resultKey r0) ∧
    ((vr.map resultKey).Nodup → (kr.map resultKey).Nodup →
        reciprocalRankFusion iter vr kr vw (101/100) = []) := by
  refine ⟨fun r hr => (rrf_mem_char iter vr kr vw ms hiter r hr).2.1, ?_, ?_⟩
  · intro r0 h
    apply rrf_complete iter vr kr vw 0 hiter
    · rcases h with h | h
      · exact Or.inl (List.mem_map.mpr ⟨r0, h, rfl⟩)
      · exact Or.inr (List.mem_map.mpr ⟨r0, h, rfl⟩)
    · exact specScore_nonneg vr kr vw h0 h1 _
  · intro hv hk
    exact rrf_empty_above_max iter vr kr vw (101/100) h0 h1 hv hk
      (by norm_num)

theorem rrf_min_similarity_filter_witness :
    (∀ dm : DocMap, List.Perm (id dm) dm) ∧ ((0 : ℚ) ≤ 7/10) ∧
    ((7 : ℚ)/10 ≤ 1) ∧ ([cxSoleRes].map resultKey).Nodup ∧
    (([] : List SearchResult).map resultKey).Nodup ∧
    reciprocalRankFusion id [cxSoleRes] [] (7/10) (101/100) = [] :=
  ⟨fun dm => List.Perm.refl dm, by norm_num, by norm_num, by decide, by decide,
   (rrf_min_similarity_filter id [cxSoleRes] [] (7/10) (101/100)
      (fun dm => List.Perm.refl dm) (by norm_num) (by norm_num)).2.2
      (by decide) (by decide)⟩

/-! ### Lemmas: ingestion job processing -/

theorem updateJobStatus_totalItems (j : IngestionJob) (s : JobStatus) :
    (updateJobStatus j s).totalItems = j.totalItems := by
  unfold updateJobStatus
  split <;> rfl

theorem updateJobStatus_processedItems (j : IngestionJob) (s : JobStatus) :
    (updateJobStatus j s).processedItems = j.processedItems := by
  unfold updateJobStatus
  split <;> rfl

theorem updateJobStatus_results (j : IngestionJob) (s : JobStatus) :
    (updateJobStatus j s).results = j.results := by
  unfold updateJobStatus
  split <;> rfl

theorem updateJobStatus_nonterminal (j : IngestionJob) (s : JobStatus)
    (h : isTerminal j.status = false) : (updateJobStatus j s).status = s := by
  unfold updateJobStatus
  rw [if_neg (by rw [h]; exact Bool.false_ne_true)]

theorem addMemoryToJob_status (j : IngestionJob) (m : Memory) :
    (addMemoryToJob j m).status = j.status := by
  unfold addMemoryToJob
  split <;> rfl

theorem addMemoryToJob_totalItems (j : IngestionJob) (m : Memory) :
    (addMemoryToJob j m).totalItems = j.totalItems := by
  unfold addMemoryToJob
  split <;> rfl

theorem addMemoryToJob_processed_mono (j : IngestionJob) (m : Memory) :
    j.processedItems ≤ (addMemoryToJob j m).processedItems ∧
      (addMemoryToJob j m).processedItems ≤ j.processedItems + 1 := by
  unfold addMemoryToJob
  split <;> simp

theorem addMemoryToJob_results_grow (j : IngestionJob) (m : Memory) :
    j.results <+: (addMemoryToJob j m).results := by
  unfold addMemoryToJob
  split
  · exact List.prefix_rfl
  · exact ⟨[m], rfl⟩

theorem stepSection_status (create : CreateFn) (j : IngestionJob) (i : Nat)
    (s : ParsedMemorySection) : (stepSection create j i s).status = j.status := by
  unfold stepSection
  split
  · rfl
  · exact addMemoryToJob_status j _

theorem stepSection_totalItems (create : CreateFn) (j : IngestionJob)
    (i : Nat) (s : ParsedMemorySection) :
    (stepSection create j i s).totalItems = j.totalItems := by
  unfold stepSection
  split
  · rfl
  · exact addMemoryToJob_totalItems j _

theorem stepSection_processed_mono (create : CreateFn) (j : IngestionJob)
    (i : Nat) (s : ParsedMemorySection) :
    j.processedItems ≤ (stepSection create j i s).processedItems ∧
      (stepSection create j i s).processedItems ≤ j.processedItems + 1 := by
  unfold stepSection
  split
  · simp
  · exact addMemoryToJob_processed_mono j _

theorem stepSection_results_grow (create : CreateFn) (j : IngestionJob)
    (i : Nat) (s : ParsedMemorySection) :
    j.results <+: (stepSection create j i s).results := by
  unfold stepSection
  split
  · exact List.prefix_rfl
  · exact addMemoryToJob_results_grow j _

theorem stepSection_results_eq (create : CreateFn) (j : IngestionJob)
    (i : Nat) (s : ParsedMemorySection) (h : isTerminal j.status = false) :
    (stepSection create j i s).results =
      j.results ++ (create i s.content).toList := by
  cases hc : create i s.content with
  | none => simp [stepSection, hc]
  | some m => simp [stepSection, hc, addMemoryToJob, h]

theorem stepSection_processed_eq (create : CreateFn) (j : IngestionJob)
    (i : Nat) (s : ParsedMemorySection) (h : isTerminal j.status = false) :
    (stepSection create j i s).processedItems =
      j.processedItems + (create i s.content).toList.length := by
  cases hc : create i s.content with
  | none => simp [stepSection, hc]
  | some m => simp [stepSection, hc, addMemoryToJob, h]

theorem sectionSuccesses_cons (create : CreateFn) (i : Nat)
    (s : ParsedMemorySection) (ss : List ParsedMemorySection) :
    sectionSuccesses create i (s :: ss) =
      (create i s.content).toList ++ sectionSuccesses create (i + 1) ss := by
  cases hc : create i s.content with
  | none => simp [sectionSuccesses, hc]
  | some m => simp [sectionSuccesses, hc]

theorem sectionSuccesses_length_le (create : CreateFn) :
    ∀ (ss : List ParsedMemorySection) (i : Nat),
      (sectionSuccesses create i ss).length ≤ ss.length := by
  intro ss
  induction ss with
  | nil => intro i; simp [sectionSuccesses]
  | cons s ss ih =>
      intro i
      rw [sectionSuccesses_cons]
      have := ih (i + 1)
      cases create i s.content <;> simp <;> omega

theorem sectionSuccesses_length_all (create : CreateFn) :
    ∀ (ss : List ParsedMemorySection) (i : Nat),
      (∀ p ∈ List.enumFrom i ss, (create p.1 p.2.content).isSome = true) →
      (sectionSuccesses create i ss).length = ss.length := by
  intro ss
  induction ss with
  | nil => intro i _; simp [sectionSuccesses]
  | cons s ss ih =>
      intro i hall
      rw [sectionSuccesses_cons]
      have hhead : (create i s.content).isSome = true :=
        hall (i, s) (by simp [List.enumFrom])
      have htail := ih (i + 1) (fun p hp => hall p (by
        simp only [List.enumFrom, List.mem_cons]
        exact Or.inr hp))
      cases hc : create i s.content with
      | none => rw [hc] at hhead; simp at hhead
      | some m => simp [htail]

theorem processAux_status (create : CreateFn) :
    ∀ (ss : List ParsedMemorySection) (i : Nat) (j : IngestionJob),
      (processAux create i j ss).status = j.status := by
  intro ss
  induction ss with
  | nil => intro i j; rfl
  | cons s ss ih =>
      intro i j
      rw [show processAux create i j (s :: ss) =
        processAux create (i + 1) (stepSection create j i s) ss from rfl,
        ih (i + 1) _, stepSection_status]

theorem processAux_results (create : CreateFn) :
    ∀ (ss : List ParsedMemorySection) (i : Nat) (j : IngestionJob),
      isTerminal j.status = false →
      (processAux create i j ss).results =
        j.results ++ sectionSuccesses create i ss := by
  intro ss
  induction ss with
  | nil => intro i j _; simp [processAux, sectionSuccesses]
  | cons s ss ih =>
      intro i j h
      rw [show processAux create i j (s :: ss) =
        processAux create (i + 1) (stepSection create j i s) ss from rfl,
        ih (i + 1) _ (by rw [stepSection_status]; exact h),
        stepSection_results_eq create j i s h, sectionSuccesses_cons,
        List.append_assoc]

theorem processAux_processed (create : CreateFn) :
    ∀ (ss : List ParsedMemorySection) (i : Nat) (j : IngestionJob),
      isTerminal j.status = false →
      (processAux create i j ss).processedItems =
        j.processedItems + (sectionSuccesses create i ss).length := by
  intro ss
  induction ss with
  | nil => intro i j _; simp [processAux, sectionSuccesses]
  | cons s ss ih =>
      intro i j h
      rw [show processAux create i j (s :: ss) =
        processAux create (i + 1) (stepSection create j i s) ss from rfl,
        ih (i + 1) _ (by rw [stepSection_status]; exact h),
        stepSection_processed_eq create j i s h, sectionSuccesses_cons]
      simp
      omega

theorem processAux_totalItems (create : CreateFn) :
    ∀ (ss : List ParsedMemorySection) (i : Nat) (j : IngestionJob),
      (processAux create i j ss).totalItems = j.totalItems := by
  intro ss
  induction ss with
  | nil => intro i j; rfl
  | cons s ss ih =>
      intro i j
      rw [show processAux create i j (s :: ss) =
        processAux create (i + 1) (stepSection create j i s) ss from rfl,
        ih (i + 1) _, stepSection_totalItems]

theorem traceAux_chain (create : CreateFn)
    (R : IngestionJob → IngestionJob → Prop)
    (hstep : ∀ j i s, R j (stepSection create j i s))
    (hcomp : ∀ j, R j (updateJobStatus j .completed)) :
    ∀ (ss : List ParsedMemorySection) (i : Nat) (j : IngestionJob),
      List.Chain' R (j :: traceAux create i j ss) := by
  intro ss
  induction ss with
  | nil =>
      intro i j
      exact List.chain'_cons.mpr ⟨hcomp j, List.chain'_singleton _⟩
  | cons s ss ih =>
      intro i j
      exact List.chain'_cons.mpr ⟨hstep j i s, ih (i + 1) _⟩

theorem traceAux_bound (create : CreateFn) :
    ∀ (ss : List ParsedMemorySection) (i : Nat) (j : IngestionJob),
      ∀ j' ∈ traceAux create i j ss,
        j'.totalItems = j.totalItems ∧
          j'.processedItems ≤ j.processedItems + ss.length := by
  intro ss
  induction ss with
  | nil =>
      intro i j j' hj'
      simp only [traceAux, List.mem_singleton] at hj'
      rw [hj', updateJobStatus_totalItems, updateJobStatus_processedItems]
      exact ⟨rfl, by omega⟩
  | cons s ss ih =>
      intro i j j' hj'
      simp only [traceAux, List.mem_cons] at hj'
      rcases hj' with hj' | hj'
      · rw [hj', stepSection_totalItems]
        refine ⟨rfl, ?_⟩
        have := (stepSection_processed_mono create j i s).2
        simp only [List.length_cons]
        omega
      · obtain ⟨h1, h2⟩ := ih (i + 1) (stepSection create j i s) j' hj'
        rw [h1, stepSection_totalItems]
        refine ⟨rfl, ?_⟩
        have := (stepSection_processed_mono create j i s).2
        simp only [List.length_cons]
        omega

theorem traceAux_status_mem (create : CreateFn) :
    ∀ (ss : List ParsedMemorySection) (i : Nat) (j : IngestionJob),
      j.status = .processing →
      ∀ j' ∈ traceAux create i j ss,
        j'.status = .processing ∨ j'.status = .completed := by
  intro ss
  induction ss with
  | nil =>
      intro i j h j' hj'
      simp only [traceAux, List.mem_singleton] at hj'
      rw [hj', updateJobStatus_nonterminal _ _ (by rw [h]; rfl)]
      exact Or.inr rfl
  | cons s ss ih =>
      intro i j h j' hj'
      simp only [traceAux, List.mem_cons] at hj'
      rcases hj' with hj' | hj'
      · rw [hj', stepSection_status, h]
        exact Or.inl rfl
      · exact ih (i + 1) _ (by rw [stepSection_status]; exact h) j' hj'

theorem processUploadJob_status (create : CreateFn) (j : IngestionJob)
    (sections : List ParsedMemorySection) (h : j.status = .pending) :
    (processUploadJob create j sections).status = .completed := by
  unfold processUploadJob
  have h1 : (updateJobStatus j .processing).status = .processing :=
    updateJobStatus_nonterminal _ _ (by rw [h]; rfl)
  have h2 : (processAux create 0 (updateJobStatus j .processing)
      sections).status = .processing := by
    rw [processAux_status, h1]
  exact updateJobStatus_nonterminal _ _ (by rw [h2]; rfl)

theorem processUploadJob_results (create : CreateFn) (j : IngestionJob)
    (sections : List ParsedMemorySection) (h : j.status = .pending) :
    (processUploadJob create j sections).results =
      j.results ++ sectionSuccesses create 0 sections := by
  unfold processUploadJob
  have h1 : (updateJobStatus j .processing).status = .processing :=
    updateJobStatus_nonterminal _ _ (by rw [h]; rfl)
  rw [updateJobStatus_results,
    processAux_results create sections 0 _ (by rw [h1]; rfl),
    updateJobStatus_results]

theorem processUploadJob_processed (create : CreateFn) (j : IngestionJob)
    (sections : List ParsedMemorySection) (h : j.status = .pending) :
    (processUploadJob create j sections).processedItems =
      j.processedItems + (sectionSuccesses create 0 sections).length := by
  unfold processUploadJob
  have h1 : (updateJobStatus j .processing).status = .processing :=
    updateJobStatus_nonterminal _ _ (by rw [h]; rfl)
  rw [updateJobStatus_processedItems,
    processAux_processed create sections 0 _ (by rw [h1]; rfl),
    updateJobStatus_processedItems]

theorem syncAux_eq (create : CreateFn) :
    ∀ (ss : List ParsedMemorySection) (i : Nat) (acc : List Memory),
      syncAux create i acc ss = acc ++ sectionSuccesses create i ss := by
  intro ss
  induction ss with
  | nil => intro i acc; simp [syncAux, sectionSuccesses]
  | cons s ss ih =>
      intro i acc
      rw [sectionSuccesses_cons]
      cases hc : create i s.content with
      | none => simp [syncAux, hc, ih]
      | some m => simp [syncAux, hc, ih, List.append_assoc]

/-- The transitions the spec's state machine allows (staying put included). -/
def statusStep (a b : JobStatus) : Prop :=
  a = b ∨ (a = .pending ∧ b = .processing) ∨
    (a = .processing ∧ (b = .completed ∨ b = .failed))

theorem traceAux_status_chain (create : CreateFn) :
    ∀ (ss : List ParsedMemorySection) (i : Nat) (j : IngestionJob),
      j.status = .processing →
      List.Chain' (fun a b => statusStep a.status b.status)
        (j :: traceAux create i j ss) := by
  intro ss
  induction ss with
  | nil =>
      intro i j h
      refine List.chain'_cons.mpr ⟨?_, List.chain'_singleton _⟩
      rw [h, updateJobStatus_nonterminal _ _ (by rw [h]; rfl)]
      exact Or.inr (Or.inr ⟨rfl, Or.inl rfl⟩)
  | cons s ss ih =>
      intro i j h
      refine List.chain'_cons.mpr ⟨?_, ih (i + 1) _ ?_⟩
      · rw [stepSection_status]
        exact Or.inl rfl
      · rw [stepSection_status]
        exact h

/-! ### Lemmas: file validation and parsing -/

theorem trimChars_all_ws (cs : List Char) (h : trimChars cs = []) :
    ∀ c ∈ cs, c.isWhitespace = true := by
  unfold trimChars at h
  rw [List.reverse_eq_nil_iff, List.dropWhile_eq_nil_iff] at h
  intro c hc
  rw [← List.takeWhile_append_dropWhile (p := Char.isWhitespace) (l := cs)]
    at hc
  rcases List.mem_append.mp hc with h1 | h1
  · exact List.mem_takeWhile_imp h1
  · exact h c (List.mem_reverse.mpr h1)

theorem splitLinesAux_mem :
    ∀ (cs cur l : List Char), l ∈ splitLinesAux cur cs →
      ∀ c ∈ l, c ∈ cur ∨ c ∈ cs := by
  intro cs
  induction cs with
  | nil =>
      intro cur l hl c hc
      simp only [splitLinesAux, List.mem_singleton] at hl
      rw [hl, List.mem_reverse] at hc
      exact Or.inl hc
  | cons c0 cs ih =>
      intro cur l hl c hc
      simp only [splitLinesAux] at hl
      by_cases h0 : c0 = '\n'
      · rw [if_pos h0] at hl
        rcases List.mem_cons.mp hl with h1 | h1
        · rw [h1, List.mem_reverse] at hc
          exact Or.inl hc
        · rcases ih [] l h1 c hc with h2 | h2
          · exact absurd h2 (List.not_mem_nil c)
          · exact Or.inr (List.mem_cons_of_mem _ h2)
      · rw [if_neg h0] at hl
        rcases ih (c0 :: cur) l hl c hc with h2 | h2
        · rcases List.mem_cons.mp h2 with h3 | h3
          · exact Or.inr (by rw [h3]; exact List.mem_cons_self _ _)
          · exact Or.inl h3
        · exact Or.inr (List.mem_cons_of_mem _ h2)

theorem isHeadingLine_hash (l : List Char) (h : isHeadingLine l = true) :
    '#' ∈ l := by
  cases l with
  | nil => exact absurd h (by decide)
  | cons c cs =>
      by_cases hc : c = '#'
      · rw [hc]
        exact List.mem_cons_self _ _
      · exfalso
        have h0 : hashRun (c :: cs) = 0 := by
          simp [hashRun, List.takeWhile_cons, beq_false_of_ne hc]
        unfold isHeadingLine at h
        rw [h0] at h
        simp at h

theorem no_heading_of_all_ws (content : List Char)
    (hws : ∀ c ∈ content, c.isWhitespace = true) :
    (splitLines content).all (fun l => !isHeadingLine l) = true := by
  rw [List.all_eq_true]
  intro l hl
  rw [Bool.not_eq_true']
  by_contra hcon
  rw [Bool.not_eq_false] at hcon
  have hhash := isHeadingLine_hash l hcon
  rcases splitLinesAux_mem content [] l hl '#' hhash with h | h
  · exact absurd h (List.not_mem_nil _)
  · exact absurd (hws '#' h) (by decide)

theorem ValidateFile_too_large (fn : String) (size : Int)
    (h : MaxFileSize < size) :
    ValidateFile fn size = .error ⟨"too_large", "File exceeds 5MB limit"⟩ := by
  unfold ValidateFile
  rw [if_pos h]

theorem ValidateFile_bad_ext (fn : String) (size : Int)
    (hsize : ¬MaxFileSize < size)
    (h1 : toLowerStr (filepathExt fn) ≠ ".txt")
    (h2 : toLowerStr (filepathExt fn) ≠ ".md") :
    ValidateFile fn size =
      .error ⟨"invalid_type", "Only .txt and .md files allowed"⟩ := by
  unfold ValidateFile
  rw [if_neg hsize, if_pos ⟨h1, h2⟩]

theorem GetFileType_of_validate (fn : String) (size : Int)
    (hv : ValidateFile fn size = .ok ()) :
    GetFileType fn = .ok (toLowerStr (filepathExt fn)) ∧
      (toLowerStr (filepathExt fn) = ".txt" ∨ toLowerStr (filepathExt fn) = ".md") := by
  unfold ValidateFile at hv
  split at hv
  · exact absurd hv (by simp)
  · dsimp only at hv
    split at hv
    · exact absurd hv (by simp)
    · next hcond =>
        constructor
        · unfold GetFileType
          rw [if_neg hcond]
        · by_cases h1 : toLowerStr (filepathExt fn) = ".txt"
          · exact Or.inl h1
          · refine Or.inr ?_
            by_contra h2
            exact hcond ⟨h1, h2⟩

theorem ParseFile_err_of_blank (fn : String) (size : Int)
    (content : List Char) (hv : ValidateFile fn size = .ok ())
    (hb : trimChars content = []) :
    ∃ e, ParseFile fn content = .error e := by
  obtain ⟨hgft, hext⟩ := GetFileType_of_validate fn size hv
  unfold ParseFile
  rw [hgft]
  dsimp only
  rcases hext with h1 | h1
  · rw [if_pos h1]
    unfold parseTxtFile
    rw [if_pos hb]
    exact ⟨_, rfl⟩
  · rw [if_neg (by rw [h1]; decide), if_pos h1]
    unfold parseMarkdownFile
    rw [if_pos (no_heading_of_all_ws content (trimChars_all_ws content hb)),
      if_pos hb]
    exact ⟨_, rfl⟩

theorem ParseFile_ok_ne_nil (fn : String) (content : List Char)
    (sections : List ParsedMemorySection)
    (hp : ParseFile fn content = .ok sections) : sections ≠ [] := by
  unfold ParseFile at hp
  cases hft : GetFileType fn with
  | error e => rw [hft] at hp; exact absurd hp (by simp)
  | ok ft =>
      rw [hft] at hp
      dsimp only at hp
      by_cases h1 : ft = ".txt"
      · rw [if_pos h1] at hp
        unfold parseTxtFile at hp
        dsimp only at hp
        split at hp
        · exact absurd hp (by simp)
        · intro hn
          rw [hn] at hp
          exact absurd (Except.ok.inj hp) (by simp)
      · rw [if_neg h1] at hp
        by_cases h2 : ft = ".md"
        · rw [if_pos h2] at hp
          unfold parseMarkdownFile at hp
          dsimp only at hp
          split at hp
          · split at hp
            · exact absurd hp (by simp)
            · intro hn
              rw [hn] at hp
              exact absurd (Except.ok.inj hp) (by simp)
          · split at hp
            · exact absurd hp (by simp)
            · next hne =>
                intro hn
                exact hne (by rw [Except.ok.inj hp, hn])
        · rw [if_neg h2] at hp
          exact absurd hp (by simp)

theorem uploadAsync_validate_err (newId uid fn : String) (size : Int)
    (content : List Char) (e : FileUploadError)
    (hv : ValidateFile fn size = .error e) :
    uploadMemoryFileAsync newId uid fn size content =
      ⟨.badRequest e.message, none, []⟩ := by
  unfold uploadMemoryFileAsync
  rw [hv]

theorem uploadAsync_parse_err (newId uid fn : String) (size : Int)
    (content : List Char) (e : FileUploadError)
    (hv : ValidateFile fn size = .ok ())
    (hp : ParseFile fn content = .error e) :
    uploadMemoryFileAsync newId uid fn size content =
      ⟨.badRequest ("Parse error: " ++ e.message), none, []⟩ := by
  unfold uploadMemoryFileAsync
  rw [hv, hp]

/-! ### C1, C2, C3: the ingestion job state machine and its worker -/

/-- C1: for every job started over a parsed section sequence, a per-section
creation failure is skipped without aborting the job (the final results are
exactly the successfully created memories, in section order) and exhausting
the sequence always transitions the job to completed; when every section of
a sequence succeeds, the final snapshot has processedItems = length and
results containing exactly one document per section in original order — for
3 sections, status completed, processedItems 3 and 3 documents. -/
theorem upload_job_processing (create : CreateFn) (id uid fn ft : String)
    (sections : List ParsedMemorySection) :
    (processUploadJob create (createJob id uid fn ft sections.length)
      sections).status = .completed ∧
    (processUploadJob create (createJob id uid fn ft sections.length)
      sections).results = sectionSuccesses create 0 sections ∧
    ((∀ p ∈ sections.enum, (create p.1 p.2.content).isSome = true) →
      (processUploadJob create (createJob id uid fn ft sections.length)
        sections).processedItems = sections.length ∧
      (processUploadJob create (createJob id uid fn ft sections.length)
        sections).results.length = sections.length) := by
  have hp : (createJob id uid fn ft sections.length).status = .pending := rfl
  refine ⟨processUploadJob_status create _ sections hp, ?_, ?_⟩
  · rw [processUploadJob_results create _ sections hp]
    rfl
  · intro hall
    have hlen := sectionSuccesses_length_all create sections 0 hall
    constructor
    · rw [processUploadJob_processed create _ sections hp, hlen]
      simp [createJob]
    · rw [processUploadJob_results create _ sections hp]
      simp only [createJob, List.nil_append]
      exact hlen

/-- Concrete three-section sequence for the C1 witness. -/
def wSections : List ParsedMemorySection :=
  [⟨['a'], [], 0⟩, ⟨['b'], [], 1⟩, ⟨['c'], [], 2⟩]

/-- A collaborator that succeeds on every section. -/
def wCreate : CreateFn := fun _ _ => some ⟨"m", "x"⟩

theorem upload_job_processing_witness :
    (∀ p ∈ wSections.enum, (wCreate p.1 p.2.content).isSome = true) ∧
    (processUploadJob wCreate
      (createJob "j" "u" "notes.txt" ".txt" wSections.length)
      wSections).status = .completed ∧
    (processUploadJob wCreate
      (createJob "j" "u" "notes.txt" ".txt" wSections.length)
      wSections).processedItems = 3 ∧
    (processUploadJob wCreate
      (createJob "j" "u" "notes.txt" ".txt" wSections.length)
      wSections).results.length = 3 :=
  ⟨by decide,
   (upload_job_processing wCreate "j" "u" "notes.txt" ".txt" wSections).1,
   ((upload_job_processing wCreate "j" "u" "notes.txt" ".txt"
      wSections).2.2 (by decide)).1,
   ((upload_job_processing wCreate "j" "u" "notes.txt" ".txt"
      wSections).2.2 (by decide)).2⟩

/-- C2: along the whole lifetime of a job the statuses follow the machine
pending -> processing -> {completed | failed}; pending and processing are
exactly the non-terminal states; once terminal, updateJobStatus,
addMemoryToJob and failJob leave the job untouched; the handler's worker
never reaches failed (it always proceeds to completed once the job exists),
and the failure entry point, the only producer of failed, sets
errorMessage. -/
theorem job_state_machine :
    (∀ (create : CreateFn) (id uid fn ft : String)
        (sections : List ParsedMemorySection),
      List.Chain' statusStep
        ((processTrace create (createJob id uid fn ft sections.length)
          sections).map IngestionJob.status) ∧
      ∀ j' ∈ processTrace create (createJob id uid fn ft sections.length)
          sections, j'.status ≠ .failed) ∧
    (∀ s : JobStatus, isTerminal s = false ↔ s = .pending ∨ s = .processing) ∧
    (∀ (j : IngestionJob) (s : JobStatus), isTerminal j.status = true →
        updateJobStatus j s = j) ∧
    (∀ (j : IngestionJob) (m : Memory), isTerminal j.status = true →
        addMemoryToJob j m = j) ∧
    (∀ (j : IngestionJob) (msg : String), isTerminal j.status = true →
        failJob j msg = j) ∧
    (∀ (j : IngestionJob) (msg : String), isTerminal j.status = false →
        (failJob j msg).status = .failed ∧
          (failJob j msg).errorMessage = some msg) := by
  refine ⟨?_, ?_, ?_, ?_, ?_, ?_⟩
  · intro create id uid fn ft sections
    have hpend : (createJob id uid fn ft sections.length).status = .pending :=
      rfl
    have hproc : (updateJobStatus
        (createJob id uid fn ft sections.length) .processing).status =
        .processing :=
      updateJobStatus_nonterminal _ _ (by rw [hpend]; rfl)
    constructor
    · rw [List.chain'_map]
      unfold processTrace
      refine List.chain'_cons.mpr ⟨?_, ?_⟩
      · rw [hpend, hproc]
        exact Or.inr (Or.inl ⟨rfl, rfl⟩)
      · exact traceAux_status_chain create sections 0 _ hproc
    · intro j' hj'
      unfold processTrace at hj'
      rcases List.mem_cons.mp hj' with h | h
      · rw [h, hpend]
        exact fun hcon => JobStatus.noConfusion hcon
      · rcases List.mem_cons.mp h with h2 | h2
        · rw [h2, hproc]
          exact fun hcon => JobStatus.noConfusion hcon
        · rcases traceAux_status_mem create sections 0 _ hproc j' h2 with
            h3 | h3 <;> rw [h3] <;>
            exact fun hcon => JobStatus.noConfusion hcon
  · intro s
    cases s <;> simp [isTerminal]
  · intro j s h
    unfold updateJobStatus
    rw [if_pos h]
  · intro j m h
    unfold addMemoryToJob
    rw [if_pos h]
  · intro j msg h
    unfold failJob
    rw [if_pos h]
  · intro j msg h
    unfold failJob
    rw [if_neg (by rw [h]; exact Bool.false_ne_true)]
    exact ⟨rfl, rfl⟩

theorem job_state_machine_witness :
    isTerminal (createJob "j" "u" "f.txt" ".txt" 1).status = false ∧
    (failJob (createJob "j" "u" "f.txt" ".txt" 1) "boom").status = .failed ∧
    (failJob (createJob "j" "u" "f.txt" ".txt" 1) "boom").errorMessage =
      some "boom" ∧
    isTerminal (failJob (createJob "j" "u" "f.txt" ".txt" 1) "boom").status
      = true ∧
    updateJobStatus (failJob (createJob "j" "u" "f.txt" ".txt" 1) "boom")
      .pending = failJob (createJob "j" "u" "f.txt" ".txt" 1) "boom" :=
  ⟨by decide,
   (job_state_machine.2.2.2.2.2 (createJob "j" "u" "f.txt" ".txt" 1) "boom"
     (by decide)).1,
   (job_state_machine.2.2.2.2.2 (createJob "j" "u" "f.txt" ".txt" 1) "boom"
     (by decide)).2,
   by decide,
   job_state_machine.2.2.1
     (failJob (createJob "j" "u" "f.txt" ".txt" 1) "boom") .pending
     (by decide)⟩

/-- Per-step progress relation: processedItems may only grow and results may
only be extended. -/
def progressStep (a b : IngestionJob) : Prop :=
  a.processedItems ≤ b.processedItems ∧ a.results <+: b.results

theorem progressStep_update (j : IngestionJob) (s : JobStatus) :
    progressStep j (updateJobStatus j s) := by
  unfold progressStep
  rw [updateJobStatus_processedItems, updateJobStatus_results]
  exact ⟨le_refl _, List.prefix_rfl⟩

/-- C3: over the lifetime of every job, processedItems is monotonically
non-decreasing and never exceeds totalItems, and results grows append-only,
ending as exactly the successfully created documents in the ordinal order of
their sections. -/
theorem job_progress_monotone (create : CreateFn) (id uid fn ft : String)
    (sections : List ParsedMemorySection) :
    List.Chain' progressStep
      (processTrace create (createJob id uid fn ft sections.length)
        sections) ∧
    (∀ j' ∈ processTrace create (createJob id uid fn ft sections.length)
        sections, j'.processedItems ≤ j'.totalItems) ∧
    (processUploadJob create (createJob id uid fn ft sections.length)
      sections).results = sectionSuccesses create 0 sections := by
  have hp : (createJob id uid fn ft sections.length).status = .pending := rfl
  refine ⟨?_, ?_, ?_⟩
  · unfold processTrace
    refine List.chain'_cons.mpr ⟨progressStep_update _ _, ?_⟩
    refine traceAux_chain create progressStep ?_ ?_ sections 0 _
    · intro j i s
      exact ⟨(stepSection_processed_mono create j i s).1,
        stepSection_results_grow create j i s⟩
    · intro j
      exact progressStep_update _ _
  · intro j' hj'
    unfold processTrace at hj'
    rcases List.mem_cons.mp hj' with h | h
    · rw [h]
      exact Nat.zero_le _
    · rcases List.mem_cons.mp h with h2 | h2
      · rw [h2, updateJobStatus_processedItems, updateJobStatus_totalItems]
        exact Nat.zero_le _
      · obtain ⟨ht, hb⟩ := traceAux_bound create sections 0 _ j' h2
        rw [ht, updateJobStatus_totalItems, updateJobStatus_processedItems]
          at *
        calc j'.processedItems ≤
            (createJob id uid fn ft sections.length).processedItems +
              sections.length := hb
          _ = (createJob id uid fn ft sections.length).totalItems := by
              simp [createJob]
  · rw [processUploadJob_results create _ sections hp]
    rfl

/-! ### C7, C9: the asynchronous upload endpoint -/

/-- C7: a valid multipart upload parsing into at least one section makes the
handler create a pending job and answer 202 Accepted immediately with
job_id, status, filename and file_type, the status being pending (sections
are processed asynchronously after the response); a successful parse always
yields at least one section. -/
theorem upload_accepted_pending (newId uid fn : String) (size : Int)
    (content : List Char) (sections : List ParsedMemorySection)
    (hv : ValidateFile fn size = .ok ())
    (hp : ParseFile fn content = .ok sections) :
    (uploadMemoryFileAsync newId uid fn size content).response =
      .accepted newId .pending fn (filepathExt fn) ∧
    (uploadMemoryFileAsync newId uid fn size content).job =
      some (createJob newId uid fn (filepathExt fn) sections.length) ∧
    (createJob newId uid fn (filepathExt fn) sections.length).status =
      .pending ∧
    (uploadMemoryFileAsync newId uid fn size content).pendingSections =
      sections ∧
    sections ≠ [] := by
  unfold uploadMemoryFileAsync
  rw [hv, hp]
  exact ⟨rfl, rfl, rfl, rfl, ParseFile_ok_ne_nil fn content sections hp⟩

theorem upload_accepted_pending_witness :
    ValidateFile "notes.txt" 5 = .ok () ∧
    ParseFile "notes.txt" ('h' :: 'i' :: []) =
      .ok [⟨['h', 'i'], "notes.txt".data, 0⟩] ∧
    (uploadMemoryFileAsync "j1" "u" "notes.txt" 5
      ('h' :: 'i' :: [])).response =
      .accepted "j1" .pending "notes.txt" (filepathExt "notes.txt") :=
  ⟨rfl, rfl,
   (upload_accepted_pending "j1" "u" "notes.txt" 5 ('h' :: 'i' :: [])
      [⟨['h', 'i'], "notes.txt".data, 0⟩] rfl rfl).1⟩

/-- C9: an uploaded file that is over 5 MB, has an extension (lower-cased)
other than .txt or .md, or has blank content is rejected with 400 Bad
Request before any ingestion job is created and before any section is handed
to the worker. -/
theorem upload_rejected_before_job (newId uid fn : String) (size : Int)
    (content : List Char)
    (h : MaxFileSize < size ∨
      (toLowerStr (filepathExt fn) ≠ ".txt" ∧ toLowerStr (filepathExt fn) ≠ ".md") ∨
      trimChars content = []) :
    (∃ msg, (uploadMemoryFileAsync newId uid fn size content).response =
      .badRequest msg) ∧
    (uploadMemoryFileAsync newId uid fn size content).job = none ∧
    (uploadMemoryFileAsync newId uid fn size content).pendingSections = [] := by
  rcases h with h | h | h
  · rw [uploadAsync_validate_err newId uid fn size content _
      (ValidateFile_too_large fn size h)]
    exact ⟨⟨_, rfl⟩, rfl, rfl⟩
  · by_cases hsize : MaxFileSize < size
    · rw [uploadAsync_validate_err newId uid fn size content _
        (ValidateFile_too_large fn size hsize)]
      exact ⟨⟨_, rfl⟩, rfl, rfl⟩
    · rw [uploadAsync_validate_err newId uid fn size content _
        (ValidateFile_bad_ext fn size hsize h.1 h.2)]
      exact ⟨⟨_, rfl⟩, rfl, rfl⟩
  · cases hv : ValidateFile fn size with
    | error e =>
        rw [uploadAsync_validate_err newId uid fn size content _ hv]
        exact ⟨⟨_, rfl⟩, rfl, rfl⟩
    | ok u =>
        cases u
        obtain ⟨e, hpe⟩ := ParseFile_err_of_blank fn size content hv h
        rw [uploadAsync_parse_err newId uid fn size content _ hv hpe]
        exact ⟨⟨_, rfl⟩, rfl, rfl⟩

theorem upload_rejected_before_job_witness :
    (MaxFileSize < 6291457 ∨
      (toLowerStr (filepathExt "big.txt") ≠ ".txt" ∧
        toLowerStr (filepathExt "big.txt") ≠ ".md") ∨
      trimChars ['x'] = []) ∧
    (uploadMemoryFileAsync "j1" "u" "big.txt" 6291457 ['x']).job = none :=
  ⟨Or.inl (by decide),
   (upload_rejected_before_job "j1" "u" "big.txt" 6291457 ['x']
      (Or.inl (by decide))).2.1⟩

/-! ### C8: the status endpoint -/

/-- C8: for a registered job id, GetUploadJobStatus answers 200 with a
consistent snapshot of exactly the stored job, whose progress is
processedItems / totalItems (0 when totalItems = 0, the empty job counting
as already complete) and lies in [0, 1] whenever processedItems does not
exceed totalItems; for an unknown id it answers 404 Not Found — reported,
not fatal. -/
theorem get_upload_job_status (registry : List (String × IngestionJob))
    (jobId : String) :
    (∀ j, registry.lookup jobId = some j →
      GetUploadJobStatus registry jobId = .ok
        ⟨j.id, j.status,
         if j.totalItems = 0 then 0
         else (j.processedItems : ℚ) / (j.totalItems : ℚ),
         j.processedItems, j.totalItems, j.results, j.errorMessage⟩) ∧
    (∀ j, registry.lookup jobId = some j → j.processedItems ≤ j.totalItems →
      ∀ snap, GetUploadJobStatus registry jobId = .ok snap →
        0 ≤ snap.progress ∧ snap.progress ≤ 1) ∧
    (registry.lookup jobId = none →
      GetUploadJobStatus registry jobId = .notFound "Job not found") := by
  refine ⟨?_, ?_, ?_⟩
  · intro j hj
    unfold GetUploadJobStatus getJobStatus
    rw [hj]
  · intro j hj hle snap hsnap
    unfold GetUploadJobStatus getJobStatus at hsnap
    rw [hj] at hsnap
    dsimp only at hsnap
    rw [← StatusResponse.ok.inj hsnap]
    dsimp only
    by_cases h0 : j.totalItems = 0
    · rw [if_pos h0]
      norm_num
    · rw [if_neg h0]
      have hpos : (0 : ℚ) < (j.totalItems : ℚ) := by
        exact_mod_cast Nat.pos_of_ne_zero h0
      constructor
      · positivity
      · rw [div_le_one hpos]
        exact_mod_cast hle
  · intro hj
    unfold GetUploadJobStatus getJobStatus
    rw [hj]

/-- A concrete mid-processing job for the C8 witness. -/
def wJob : IngestionJob :=
  ⟨"j1", "u", "f.txt", ".txt", .processing, 3, 1, none, []⟩

theorem get_upload_job_status_witness :
    ([("j1", wJob)].lookup "j1" = some wJob) ∧
    GetUploadJobStatus [("j1", wJob)] "j1" = .ok
      ⟨"j1", .processing,
       if (3 : Nat) = 0 then 0 else ((1 : Nat) : ℚ) / ((3 : Nat) : ℚ),
       1, 3, [], none⟩ ∧
    ([("j1", wJob)].lookup "nope" = none) ∧
    GetUploadJobStatus [("j1", wJob)] "nope" = .notFound "Job not found" :=
  ⟨by decide,
   (get_upload_job_status [("j1", wJob)] "j1").1 wJob (by decide),
   by decide,
   (get_upload_job_status [("j1", wJob)] "nope").2.2 (by decide)⟩

/-! ### C10: the asynchronous handler refines the synchronous one -/

/-- C10: for the same user, file and memory-creation collaborator behavior,
whenever the older synchronous handler answers 201 with a list of created
memories, the asynchronous handler accepts the same upload and its
background worker drives the created job to completed with exactly that
memory sequence, in the same order, as the job's results. -/
theorem async_refines_sync (create : CreateFn) (newId uid fn : String)
    (size : Int) (content : List Char) (mems : List Memory) (tc : Nat)
    (rfn rft : String)
    (hsync : uploadMemoryFileSync create fn size content =
      .created mems tc rfn rft) :
    ∃ job sections,
      (uploadMemoryFileAsync newId uid fn size content).job = some job ∧
      (uploadMemoryFileAsync newId uid fn size content).pendingSections =
        sections ∧
      (processUploadJob create job sections).status = .completed ∧
      (processUploadJob create job sections).results = mems := by
  unfold uploadMemoryFileSync at hsync
  cases hv : ValidateFile fn size with
  | error e => rw [hv] at hsync; exact absurd hsync (by simp)
  | ok u =>
      cases u
      rw [hv] at hsync
      dsimp only at hsync
      cases hp : ParseFile fn content with
      | error e => rw [hp] at hsync; exact absurd hsync (by simp)
      | ok sections =>
          rw [hp] at hsync
          dsimp only at hsync
          split at hsync
          · exact absurd hsync (by simp)
          · have hm : syncAux create 0 [] sections = mems :=
              (SyncUploadResponse.created.inj hsync).1
            refine ⟨createJob newId uid fn (filepathExt fn) sections.length,
              sections, ?_, ?_, ?_, ?_⟩
            · unfold uploadMemoryFileAsync
              rw [hv, hp]
            · unfold uploadMemoryFileAsync
              rw [hv, hp]
            · exact processUploadJob_status create _ _ rfl
            · rw [processUploadJob_results create _ _ rfl, ← hm, syncAux_eq]
              rfl

/-- An always-succeeding collaborator for the C10 witness. -/
def wcCreate : CreateFn := fun _ _ => some ⟨"m1", "hi"⟩

theorem async_refines_sync_witness :
    uploadMemoryFileSync wcCreate "a.txt" 2 ('h' :: 'i' :: []) =
      .created [⟨"m1", "hi"⟩] 1 "a.txt" ".txt" ∧
    ∃ job sections,
      (uploadMemoryFileAsync "j1" "u" "a.txt" 2 ('h' :: 'i' :: [])).job =
        some job ∧
      (uploadMemoryFileAsync "j1" "u" "a.txt" 2
        ('h' :: 'i' :: [])).pendingSections = sections ∧
      (processUploadJob wcCreate job sections).status = .completed ∧
      (processUploadJob wcCreate job sections).results = [⟨"m1", "hi"⟩] :=
  ⟨rfl, async_refines_sync wcCreate "j1" "u" "a.txt" 2 ('h' :: 'i' :: [])
    [⟨"m1", "hi"⟩] 1 "a.txt" ".txt" rfl⟩

end Memlane
